import Mathlib

set_option maxHeartbeats 1000000

/-!
Verification of the schema-subsetting engine of this repository:
the reference-closure resolver `extract_chat_schemas.py`
(`find_schema_references`, `extract_chat_completion_schemas`) and the
spec projector `create_trimmed_spec.py` (`create_trimmed_spec`).

The engine operates on the generic tree produced by `yaml.safe_load`:
mappings with string keys, sequences, and scalars.
-/

/-- A YAML node as loaded by `yaml.safe_load`: a mapping with string keys
(key order preserved), a sequence, or a scalar (string, number, boolean,
null). -/
inductive Node where
  | str : String → Node
  | int : Int → Node
  | bool : Bool → Node
  | null : Node
  | arr : List Node → Node
  | map : List (String × Node) → Node

/-- Accumulates the last slash-separated component of a character list:
the characters seen since the most recent `/`. -/
def lastSeg : List Char → List Char → List Char
  | acc, [] => acc
  | _, '/' :: rest => lastSeg [] rest
  | acc, c :: rest => lastSeg (acc ++ [c]) rest

/-- The schema name denoted by a reference string: its last
slash-separated path segment, as in the source's
`value.split('/')[-1]`. -/
def refName (s : String) : String := String.mk (lastSeg [] s.data)

/-- The recursive scan of `find_schema_references`, with the `visited`
set (a list, in discovery order) threaded through the traversal exactly
as the Python code threads its mutable `visited` set.  For a mapping
entry whose key is `$ref` and whose value is a string, the referenced
name is recorded if not yet visited; any other value that is a mapping
or a sequence is recursed into; scalar values under other keys are
skipped.  Because `visited` starts empty at the top-level call and the
code adds exactly the same names to `refs` and to `visited`, the final
`visited` list is the returned reference set. -/
def visitNode : Node → List String → List String
  | Node.map [], vis => vis
  | Node.map ((k, Node.str s) :: rest), vis =>
    visitNode (Node.map rest)
      (if k = "$ref" then (if refName s ∈ vis then vis else vis ++ [refName s]) else vis)
  | Node.map ((_, Node.map m) :: rest), vis =>
    visitNode (Node.map rest) (visitNode (Node.map m) vis)
  | Node.map ((_, Node.arr a) :: rest), vis =>
    visitNode (Node.map rest) (visitNode (Node.arr a) vis)
  | Node.map ((_, _) :: rest), vis =>
    visitNode (Node.map rest) vis
  | Node.arr [], vis => vis
  | Node.arr (Node.map m :: rest), vis =>
    visitNode (Node.arr rest) (visitNode (Node.map m) vis)
  | Node.arr (Node.arr a :: rest), vis =>
    visitNode (Node.arr rest) (visitNode (Node.arr a) vis)
  | Node.arr (_ :: rest), vis =>
    visitNode (Node.arr rest) vis
  | _, vis => vis

/-- The function `find_schema_references(schema)`: all schema names
referenced by `$ref` entries anywhere inside `schema`, each at most
once. -/
def find_schema_references (schema : Node) : List String :=
  visitNode schema []

example : find_schema_references
    (Node.map [("properties",
      Node.map [("a", Node.map [("$ref", Node.str "#/components/schemas/Z")]),
                ("b", Node.arr [Node.map [("$ref", Node.str "#/components/schemas/W")],
                                Node.map [("$ref", Node.str "#/components/schemas/Z")]])])])
    = ["Z", "W"] := by
  simp [find_schema_references, visitNode, refName, lastSeg]

/-- The scan of `find_schema_references` embedded with an explicit error
channel.
The Python function can in principle signal failure only by raising; its
body contains no raise statement, so every branch of this embedding
returns `Except.ok`.  This definition exists to settle what the scan
does on malformed `$ref` entries (a `$ref` whose value is not a
string). -/
def visitNodeE : Node → List String → Except String (List String)
  | Node.map [], vis => Except.ok vis
  | Node.map ((k, Node.str s) :: rest), vis =>
    visitNodeE (Node.map rest)
      (if k = "$ref" then (if refName s ∈ vis then vis else vis ++ [refName s]) else vis)
  | Node.map ((_, Node.map m) :: rest), vis =>
    match visitNodeE (Node.map m) vis with
    | Except.ok vis' => visitNodeE (Node.map rest) vis'
    | Except.error e => Except.error e
  | Node.map ((_, Node.arr a) :: rest), vis =>
    match visitNodeE (Node.arr a) vis with
    | Except.ok vis' => visitNodeE (Node.map rest) vis'
    | Except.error e => Except.error e
  | Node.map ((_, _) :: rest), vis =>
    visitNodeE (Node.map rest) vis
  | Node.arr [], vis => Except.ok vis
  | Node.arr (Node.map m :: rest), vis =>
    match visitNodeE (Node.map m) vis with
    | Except.ok vis' => visitNodeE (Node.arr rest) vis'
    | Except.error e => Except.error e
  | Node.arr (Node.arr a :: rest), vis =>
    match visitNodeE (Node.arr a) vis with
    | Except.ok vis' => visitNodeE (Node.arr rest) vis'
    | Except.error e => Except.error e
  | Node.arr (_ :: rest), vis =>
    visitNodeE (Node.arr rest) vis
  | _, vis => Except.ok vis

/-- The function `find_schema_references` with the error channel made
explicit. -/
def find_schema_references_exc (schema : Node) : Except String (List String) :=
  visitNodeE schema []

/-- Python dict lookup (`schemas[name]`, `name in schemas`) on an
association list whose keys are unique in a well-formed document. -/
def lookupName (k : String) : List (String × Node) → Option Node
  | [] => none
  | (k', v) :: rest => if k = k' then some v else lookupName k rest

/-- The key set of a schema catalog. -/
def keysOf (cat : List (String × Node)) : List String := cat.map Prod.fst

/-- The inner loop of the BFS in `extract_chat_completion_schemas`:
`for ref in refs: if ref not in all_found_schemas and ref in schemas:
all_found_schemas.add(ref); to_process.append(ref)`.  Returns the grown
visited set together with the list of newly enqueued names. -/
def processRefs (keys : List String) : List String → List String → List String × List String
  | found, [] => (found, [])
  | found, ref :: rest =>
    if ref ∉ found ∧ ref ∈ keys then
      ((processRefs keys (found ++ [ref]) rest).1,
        ref :: (processRefs keys (found ++ [ref]) rest).2)
    else
      processRefs keys found rest

/-- The visited set grown by `processRefs` is the old visited set
followed by the newly enqueued names. -/
theorem processRefs_fst (keys : List String) :
    ∀ (refs found : List String),
      (processRefs keys found refs).1 = found ++ (processRefs keys found refs).2 := by
  intro refs
  induction refs with
  | nil => intro found; simp [processRefs]
  | cons ref rest ih =>
    intro found
    by_cases h : ref ∉ found ∧ ref ∈ keys
    · simp only [processRefs, if_pos h]
      rw [ih (found ++ [ref])]
      simp
    · simp only [processRefs, if_neg h]
      exact ih found

/-- Every name newly enqueued by `processRefs` is a catalog key, was not
yet visited, and came from the scanned reference list. -/
theorem processRefs_snd_mem (keys : List String) :
    ∀ (refs found : List String) (x : String), x ∈ (processRefs keys found refs).2 →
      x ∈ keys ∧ x ∉ found ∧ x ∈ refs := by
  intro refs
  induction refs with
  | nil => intro found x hx; simp [processRefs] at hx
  | cons ref rest ih =>
    intro found x hx
    by_cases h : ref ∉ found ∧ ref ∈ keys
    · simp only [processRefs, if_pos h] at hx
      rcases List.mem_cons.mp hx with rfl | hx
      · exact ⟨h.2, h.1, List.mem_cons_self _ _⟩
      · obtain ⟨h1, h2, h3⟩ := ih (found ++ [ref]) x hx
        refine ⟨h1, fun hf => h2 ?_, List.mem_cons_of_mem _ h3⟩
        exact List.mem_append_left _ hf
    · simp only [processRefs, if_neg h] at hx
      obtain ⟨h1, h2, h3⟩ := ih found x hx
      exact ⟨h1, h2, List.mem_cons_of_mem _ h3⟩

/-- The list of names newly enqueued by `processRefs` has no
duplicates. -/
theorem processRefs_snd_nodup (keys : List String) :
    ∀ (refs found : List String), (processRefs keys found refs).2.Nodup := by
  intro refs
  induction refs with
  | nil => intro found; simp [processRefs]
  | cons ref rest ih =>
    intro found
    by_cases h : ref ∉ found ∧ ref ∈ keys
    · simp only [processRefs, if_pos h]
      refine List.nodup_cons.mpr ⟨fun hmem => ?_, ih (found ++ [ref])⟩
      have := (processRefs_snd_mem keys rest (found ++ [ref]) ref hmem).2.1
      exact this (List.mem_append_right _ (List.mem_singleton.mpr rfl))
    · simp only [processRefs, if_neg h]
      exact ih found

/-- Scanned references that are catalog keys all end up in the visited
set returned by `processRefs`. -/
theorem processRefs_complete (keys : List String) :
    ∀ (refs found : List String) (r : String), r ∈ refs → r ∈ keys →
      r ∈ (processRefs keys found refs).1 := by
  intro refs
  induction refs with
  | nil => intro found r hr; simp at hr
  | cons ref rest ih =>
    intro found r hr hk
    by_cases h : ref ∉ found ∧ ref ∈ keys
    · simp only [processRefs, if_pos h]
      rcases List.mem_cons.mp hr with rfl | hr'
      · rw [processRefs_fst]
        exact List.mem_append_left _ (List.mem_append_right _ (List.mem_singleton.mpr rfl))
      · exact ih (found ++ [ref]) r hr' hk
    · simp only [processRefs, if_neg h]
      rcases List.mem_cons.mp hr with rfl | hr'
      · rw [processRefs_fst]
        apply List.mem_append_left
        rcases Decidable.not_and_iff_or_not.mp h with h1 | h1
        · exact Decidable.not_not.mp h1
        · exact absurd hk h1
      · exact ih found r hr' hk

/-- Nothing already visited is lost by `processRefs`. -/
theorem processRefs_mono (keys : List String) (refs found : List String) :
    ∀ x ∈ found, x ∈ (processRefs keys found refs).1 := by
  intro x hx
  rw [processRefs_fst]
  exact List.mem_append_left _ hx

/-- Adding one fresh catalog key to the visited set strictly shrinks the
list of catalog keys still unvisited. -/
theorem filter_notMem_step (keys found : List String) (a : String)
    (ha : a ∈ keys) (hf : a ∉ found) :
    (keys.filter (fun k => decide (k ∉ found ++ [a]))).length <
      (keys.filter (fun k => decide (k ∉ found))).length := by
  have hsub : List.Sublist (keys.filter (fun k => decide (k ∉ found ++ [a])))
      (keys.filter (fun k => decide (k ∉ found))) := by
    apply List.monotone_filter_right
    intro x hx
    simp only [decide_eq_true_eq, List.mem_append, List.mem_singleton] at hx ⊢
    intro hxf
    exact hx (Or.inl hxf)
  rcases Nat.lt_or_ge (keys.filter (fun k => decide (k ∉ found ++ [a]))).length
      (keys.filter (fun k => decide (k ∉ found))).length with h | h
  · exact h
  · exfalso
    have heq := hsub.eq_of_length (Nat.le_antisymm hsub.length_le h)
    have ha1 : a ∈ keys.filter (fun k => decide (k ∉ found)) := by
      simp only [List.mem_filter, decide_eq_true_eq]
      exact ⟨ha, hf⟩
    rw [← heq] at ha1
    simp [List.mem_filter] at ha1

/-- Growing the visited set by a batch of fresh, pairwise-distinct
catalog keys shrinks the unvisited-key count by at least the batch
size.  This bounds the BFS of `extract_chat_completion_schemas`. -/
theorem filter_notMem_append (keys : List String) :
    ∀ (new found : List String), new.Nodup → (∀ x ∈ new, x ∈ keys) →
      (∀ x ∈ new, x ∉ found) →
      (keys.filter (fun k => decide (k ∉ found ++ new))).length + new.length
        ≤ (keys.filter (fun k => decide (k ∉ found))).length := by
  intro new
  induction new with
  | nil => intro found _ _ _; simp
  | cons a rest ih =>
    intro found hnd hk hf
    have hstep := filter_notMem_step keys found a (hk a (List.mem_cons_self _ _))
      (hf a (List.mem_cons_self _ _))
    have hrec := ih (found ++ [a]) (List.nodup_cons.mp hnd).2
      (fun x hx => hk x (List.mem_cons_of_mem _ hx))
      (fun x hx hmem => by
        rcases List.mem_append.mp hmem with h1 | h1
        · exact hf x (List.mem_cons_of_mem _ hx) h1
        · rcases List.mem_singleton.mp h1 with rfl
          exact (List.nodup_cons.mp hnd).1 hx)
    have harr : found ++ a :: rest = (found ++ [a]) ++ rest := by simp
    rw [harr]
    simp only [List.length_cons]
    omega

/-- The BFS worklist loop of `extract_chat_completion_schemas`:
`while to_process: schema_name = to_process.pop(0); if schema_name in
schemas: refs = find_schema_references(schemas[schema_name]); ...`.
The state is the visited set `found` (the code's `all_found_schemas`,
kept in insertion order) and the FIFO queue (the code's `to_process`).
Termination: each iteration either shrinks the queue, or moves at least
one not-yet-visited catalog key into `found`. -/
def closureLoop (cat : List (String × Node)) : List String → List String → List String
  | found, [] => found
  | found, name :: rest =>
    match lookupName name cat with
    | none => closureLoop cat found rest
    | some d =>
      closureLoop cat
        (processRefs (keysOf cat) found (find_schema_references d)).1
        (rest ++ (processRefs (keysOf cat) found (find_schema_references d)).2)
termination_by found queue =>
  ((keysOf cat).filter (fun k => decide (k ∉ found))).length + queue.length
decreasing_by
  · simp only [List.length_cons]
    omega
  · have hfst := processRefs_fst (keysOf cat) (find_schema_references d) found
    have hbound := filter_notMem_append (keysOf cat)
      (processRefs (keysOf cat) found (find_schema_references d)).2 found
      (processRefs_snd_nodup (keysOf cat) (find_schema_references d) found)
      (fun x hx => (processRefs_snd_mem (keysOf cat) (find_schema_references d) found x hx).1)
      (fun x hx => (processRefs_snd_mem (keysOf cat) (find_schema_references d) found x hx).2.1)
    rw [← hfst] at hbound
    simp only [List.length_append, List.length_cons]
    omega

/-- The closure computation of `extract_chat_completion_schemas`: the
visited set `all_found_schemas` is seeded with the root names
(`set(chat_schemas)`), the queue with the same names
(`list(chat_schemas)`), and the BFS loop is run to exhaustion. -/
def refClosure (cat : List (String × Node)) (roots : List String) : List String :=
  closureLoop cat roots.dedup roots.dedup

/-- The final extraction loop of `extract_chat_completion_schemas`:
`for schema_name in all_found_schemas: if schema_name in schemas:
extracted_schemas[schema_name] = schemas[schema_name]`. -/
def extractSchemas (cat : List (String × Node)) (roots : List String) :
    List (String × Node) :=
  (refClosure cat roots).filterMap fun n => (lookupName n cat).map fun d => (n, d)

/-- The root set hard-coded in `extract_chat_completion_schemas`. -/
def chatRoots : List String :=
  ["CreateChatCompletionRequest", "CreateChatCompletionResponse",
   "CreateChatCompletionStreamResponse", "ChatCompletionList"]

/-- Python `d.get(key, default)` on a document node; only ever applied
to mapping nodes in the source, so non-mappings yield the default. -/
def dictGet (n : Node) (k : String) (default : Node) : Node :=
  match n with
  | Node.map kvs => (lookupName k kvs).getD default
  | _ => default

/-- The entry list of a mapping node (the view the source takes of a
section it iterates or indexes; non-mappings have no entries). -/
def asMap : Node → List (String × Node)
  | Node.map kvs => kvs
  | _ => []

/-- The schema catalog of a document:
`spec.get('components', {}).get('schemas', {})`. -/
def schemasOf (doc : Node) : List (String × Node) :=
  asMap (dictGet (dictGet doc "components" (Node.map [])) "schemas" (Node.map []))

/-- The paths section of a document: `spec.get('paths', {})`. -/
def pathsOf (doc : Node) : List (String × Node) :=
  asMap (dictGet doc "paths" (Node.map []))

/-- The whole of `extract_chat_completion_schemas` on an already-loaded
document: run the BFS closure from the hard-coded chat-completion roots
over the document's schema catalog, then extract the found schemas that
exist in the catalog. -/
def extract_chat_completion_schemas (doc : Node) : List (String × Node) :=
  extractSchemas (schemasOf doc) chatRoots

/-- The schema projection loop of `create_trimmed_spec`:
`for schema_name in chat_schemas: if schema_name in original_schemas:
trimmed_spec['components']['schemas'][schema_name] =
original_schemas[schema_name]`.  `closureNames` is the name list read
from `chat_completion_schemas.txt` (the resolver's output). -/
def trimmedSchemas (closureNames : List String) (originalSchemas : List (String × Node)) :
    List (String × Node) :=
  closureNames.filterMap fun n => (lookupName n originalSchemas).map fun d => (n, d)

/-- The path projection of `create_trimmed_spec`, generalized to an
allow-list of path keys; the source instantiates it with the single key
`/chat/completions`: `if '/chat/completions' in original_paths:
trimmed_spec['paths']['/chat/completions'] =
original_paths['/chat/completions']`. -/
def trimPaths (allowList : List String) (originalPaths : List (String × Node)) :
    List (String × Node) :=
  allowList.filterMap fun k => (lookupName k originalPaths).map fun v => (k, v)

/-- The path allow-list hard-coded in `create_trimmed_spec`. -/
def chatPathAllowList : List String := ["/chat/completions"]

/-- The document built by `create_trimmed_spec`, field by field in the
source's construction order.  `closureNames` is the schema name list
read from the resolver's output file. -/
def create_trimmed_spec (closureNames : List String) (spec : Node) : Node :=
  Node.map
    [("openapi", dictGet spec "openapi" Node.null),
     ("info", Node.map
        [("title", Node.str "OpenAI Chat Completions API (Trimmed)"),
         ("description", Node.str
            "Trimmed OpenAI API specification containing only chat completions endpoint and related components"),
         ("version", dictGet (dictGet spec "info" (Node.map [])) "version"
            (Node.str "1.0.0"))]),
     ("servers", dictGet spec "servers" (Node.arr [])),
     ("security", dictGet spec "security" (Node.arr [])),
     ("paths", Node.map (trimPaths chatPathAllowList (pathsOf spec))),
     ("components", Node.map
        [("schemas", Node.map (trimmedSchemas closureNames (schemasOf spec))),
         ("securitySchemes", dictGet (dictGet spec "components" (Node.map []))
            "securitySchemes" (Node.map []))])]

/-- Reachability along `$ref` edges: an edge leads from a name whose
definition is present in the catalog to each name that
`find_schema_references` finds in that definition.  This is the
spec's notion of a schema name transitively reachable from the root
set. -/
inductive Reachable (cat : List (String × Node)) (roots : List String) : String → Prop
  | root {n : String} : n ∈ roots → Reachable cat roots n
  | step {m r : String} {d : Node} : Reachable cat roots m →
      lookupName m cat = some d → r ∈ find_schema_references d →
      Reachable cat roots r

/-- Example catalog: X has no references, Y references the undefined
name Z (the spec's dangling-reference scenario). -/
def danglingCat : List (String × Node) :=
  [("X", Node.map [("type", Node.str "string")]),
   ("Y", Node.map [("$ref", Node.str "#/components/schemas/Z")])]

/-- Example catalog: M references itself (the spec's self-reference
scenario). -/
def selfRefCat : List (String × Node) :=
  [("M", Node.map [("properties",
     Node.map [("self", Node.map [("$ref", Node.str "#/components/schemas/M")])])])]

/-- Example catalog: A and B reference each other (a 2-cycle). -/
def twoCycleCat : List (String × Node) :=
  [("A", Node.map [("$ref", Node.str "#/components/schemas/B")]),
   ("B", Node.map [("$ref", Node.str "#/components/schemas/A")])]

/-- Names already in the visited set survive to the end of the BFS. -/
theorem closureLoop_mono (cat : List (String × Node)) :
    ∀ (found queue : List String) (x : String), x ∈ found →
      x ∈ closureLoop cat found queue := by
  intro found queue
  induction found, queue using closureLoop.induct cat with
  | case1 found => intro x hx; rw [closureLoop]; exact hx
  | case2 found name rest hnone ih =>
    intro x hx
    rw [closureLoop]
    simp only [hnone]
    exact ih x hx
  | case3 found name rest d hsome ih =>
    intro x hx
    rw [closureLoop]
    simp only [hsome]
    exact ih x (processRefs_mono _ _ _ x hx)

/-- A successful catalog lookup means the name is a catalog key. -/
theorem lookupName_mem_keys {k : String} {d : Node} :
    ∀ {cat : List (String × Node)}, lookupName k cat = some d → k ∈ keysOf cat := by
  intro cat
  induction cat with
  | nil => intro h; simp [lookupName] at h
  | cons p rest ih =>
    intro h
    by_cases hk : k = p.1
    · subst hk; simp [keysOf]
    · simp only [keysOf, List.map_cons, List.mem_cons]
      refine Or.inr ?_
      have : lookupName k rest = some d := by
        obtain ⟨k', v⟩ := p
        simpa [lookupName, hk] using h
      exact ih this

/-- A catalog key always has a successful lookup. -/
theorem lookup_isSome_of_mem_keys {k : String} :
    ∀ {cat : List (String × Node)}, k ∈ keysOf cat →
      ∃ d, lookupName k cat = some d := by
  intro cat
  induction cat with
  | nil => intro h; simp [keysOf] at h
  | cons p rest ih =>
    intro h
    by_cases hk : k = p.1
    · exact ⟨p.2, by obtain ⟨k', v⟩ := p; simp_all [lookupName]⟩
    · simp only [keysOf, List.map_cons, List.mem_cons] at h
      rcases h with h | h
      · exact absurd h hk
      · obtain ⟨d, hd⟩ := ih h
        exact ⟨d, by obtain ⟨k', v⟩ := p; simpa [lookupName, hk]⟩

/-- The BFS visited set stays duplicate-free. -/
theorem closureLoop_nodup (cat : List (String × Node)) :
    ∀ (found queue : List String), found.Nodup →
      (closureLoop cat found queue).Nodup := by
  intro found queue
  induction found, queue using closureLoop.induct cat with
  | case1 found => intro h; rw [closureLoop]; exact h
  | case2 found name rest hnone ih =>
    intro h
    rw [closureLoop]; simp only [hnone]
    exact ih h
  | case3 found name rest d hsome ih =>
    intro h
    rw [closureLoop]; simp only [hsome]
    apply ih
    rw [processRefs_fst]
    refine List.nodup_append.mpr ⟨h, processRefs_snd_nodup _ _ _, ?_⟩
    intro x hx hx2
    exact (processRefs_snd_mem _ _ _ x hx2).2.1 hx

/-- Every name the BFS ever visits is a root or a catalog key reachable
from the roots. -/
theorem closureLoop_sound (cat : List (String × Node)) (roots : List String) :
    ∀ (found queue : List String),
      (∀ x ∈ queue, x ∈ found) →
      (∀ x ∈ found, x ∈ roots ∨ (x ∈ keysOf cat ∧ Reachable cat roots x)) →
      ∀ x ∈ closureLoop cat found queue,
        x ∈ roots ∨ (x ∈ keysOf cat ∧ Reachable cat roots x) := by
  intro found queue
  induction found, queue using closureLoop.induct cat with
  | case1 found =>
    intro _ hf x hx
    rw [closureLoop] at hx
    exact hf x hx
  | case2 found name rest hnone ih =>
    intro hq hf x hx
    rw [closureLoop] at hx; simp only [hnone] at hx
    exact ih (fun y hy => hq y (List.mem_cons_of_mem _ hy)) hf x hx
  | case3 found name rest d hsome ih =>
    intro hq hf x hx
    rw [closureLoop] at hx; simp only [hsome] at hx
    have hname : Reachable cat roots name := by
      rcases hf name (hq name (List.mem_cons_self _ _)) with h | h
      · exact Reachable.root h
      · exact h.2
    refine ih ?_ ?_ x hx
    · intro y hy
      rcases List.mem_append.mp hy with h | h
      · exact processRefs_mono _ _ _ y (hq y (List.mem_cons_of_mem _ h))
      · rw [processRefs_fst]; exact List.mem_append_right _ h
    · intro y hy
      rw [processRefs_fst] at hy
      rcases List.mem_append.mp hy with h | h
      · exact hf y h
      · obtain ⟨h1, _, h3⟩ := processRefs_snd_mem _ _ _ y h
        exact Or.inr ⟨h1, Reachable.step hname hsome h3⟩

/-- When the BFS finishes, the visited set is closed under reference
edges whose target is a catalog key, provided every already-visited
name is either still queued or already fully expanded. -/
theorem closureLoop_closed (cat : List (String × Node)) :
    ∀ (found queue : List String),
      (∀ x ∈ queue, x ∈ found) →
      (∀ m ∈ found, m ∉ queue → ∀ d, lookupName m cat = some d →
        ∀ r ∈ find_schema_references d, r ∈ keysOf cat → r ∈ found) →
      ∀ m ∈ closureLoop cat found queue, ∀ d, lookupName m cat = some d →
        ∀ r ∈ find_schema_references d, r ∈ keysOf cat →
          r ∈ closureLoop cat found queue := by
  intro found queue
  induction found, queue using closureLoop.induct cat with
  | case1 found =>
    intro _ hexp m hm d hd r hr hk
    rw [closureLoop] at hm ⊢
    exact hexp m hm (List.not_mem_nil m) d hd r hr hk
  | case2 found name rest hnone ih =>
    intro hq hexp m hm d hd r hr hk
    rw [closureLoop] at hm ⊢; simp only [hnone] at hm ⊢
    refine ih (fun y hy => hq y (List.mem_cons_of_mem _ hy)) ?_ m hm d hd r hr hk
    intro m' hm' hnq d' hd' r' hr' hk'
    by_cases hmn : m' = name
    · subst hmn; rw [hnone] at hd'; exact absurd hd' (by simp)
    · refine hexp m' hm' ?_ d' hd' r' hr' hk'
      intro hcon
      rcases List.mem_cons.mp hcon with h | h
      · exact hmn h
      · exact hnq h
  | case3 found name rest d hsome ih =>
    intro hq hexp m hm d' hd' r hr hk
    rw [closureLoop] at hm ⊢; simp only [hsome] at hm ⊢
    refine ih ?_ ?_ m hm d' hd' r hr hk
    · intro y hy
      rcases List.mem_append.mp hy with h | h
      · exact processRefs_mono _ _ _ y (hq y (List.mem_cons_of_mem _ h))
      · rw [processRefs_fst]; exact List.mem_append_right _ h
    · intro m' hm' hnq d'' hd'' r' hr' hk'
      rw [processRefs_fst] at hm'
      rcases List.mem_append.mp hm' with hmf | hmnew
      · by_cases hmn : m' = name
        · subst hmn
          rw [hsome] at hd''
          injection hd'' with hdd
          subst hdd
          exact processRefs_complete _ _ _ r' hr' hk'
        · have hnq' : m' ∉ name :: rest := by
            intro hcon
            rcases List.mem_cons.mp hcon with h | h
            · exact hmn h
            · exact hnq (List.mem_append_left _ h)
          exact processRefs_mono _ _ _ r'
            (hexp m' hmf hnq' d'' hd'' r' hr' hk')
      · exact absurd (List.mem_append_right rest hmnew) hnq

/-- Every root name is in the computed closure. -/
theorem refClosure_roots (cat : List (String × Node)) (roots : List String)
    {r : String} (hr : r ∈ roots) : r ∈ refClosure cat roots :=
  closureLoop_mono cat _ _ r (List.mem_dedup.mpr hr)

/-- The computed closure is duplicate-free. -/
theorem refClosure_nodup (cat : List (String × Node)) (roots : List String) :
    (refClosure cat roots).Nodup :=
  closureLoop_nodup cat _ _ (List.nodup_dedup roots)

/-- Everything in the computed closure is a root or a reachable catalog
key. -/
theorem refClosure_sound (cat : List (String × Node)) (roots : List String)
    {x : String} (hx : x ∈ refClosure cat roots) :
    x ∈ roots ∨ (x ∈ keysOf cat ∧ Reachable cat roots x) := by
  refine closureLoop_sound cat roots _ _ (fun y hy => hy) ?_ x hx
  intro y hy
  exact Or.inl (List.mem_dedup.mp hy)

/-- The computed closure is closed under reference edges landing on
catalog keys. -/
theorem refClosure_closed (cat : List (String × Node)) (roots : List String)
    {m : String} (hm : m ∈ refClosure cat roots) {d : Node}
    (hd : lookupName m cat = some d) {r : String}
    (hr : r ∈ find_schema_references d) (hk : r ∈ keysOf cat) :
    r ∈ refClosure cat roots := by
  refine closureLoop_closed cat _ _ (fun y hy => hy) ?_ m hm d hd r hr hk
  intro m' hm' hnq
  exact absurd hm' hnq

/-- Every reachable name that is a catalog key is in the computed
closure. -/
theorem refClosure_complete (cat : List (String × Node)) (roots : List String)
    {n : String} (hreach : Reachable cat roots n) (hk : n ∈ keysOf cat) :
    n ∈ refClosure cat roots := by
  induction hreach with
  | root h => exact refClosure_roots cat roots h
  | step hm hd hr ih =>
    exact refClosure_closed cat roots (ih (lookupName_mem_keys hd)) hd hr hk

/-- Full characterization of the computed closure: the roots, plus the
reachable catalog keys. -/
theorem mem_refClosure_iff (cat : List (String × Node)) (roots : List String)
    (n : String) :
    n ∈ refClosure cat roots ↔
      n ∈ roots ∨ (n ∈ keysOf cat ∧ Reachable cat roots n) := by
  constructor
  · exact refClosure_sound cat roots
  · intro h
    rcases h with h | ⟨hk, hr⟩
    · exact refClosure_roots cat roots h
    · exact refClosure_complete cat roots hr hk

/-- The reference scan never takes an error branch: on every node it
returns exactly the pure scan's result.  In particular a `$ref` entry
whose value is not a string is passed over (recursed into when the
value is a mapping or sequence, skipped otherwise) without failing. -/
theorem visitNodeE_ok :
    ∀ (n : Node) (vis : List String), visitNodeE n vis = Except.ok (visitNode n vis) := by
  intro n vis
  induction n, vis using visitNode.induct
  all_goals simp only [visitNodeE, visitNode]
  all_goals try assumption
  all_goals rename_i ih1 ih2
  all_goals rw [ih1]
  all_goals exact ih2

/-- Lookup in an association list built by keeping, for each name of a
list, its binding from an original section (the common shape of both
projection loops in `create_trimmed_spec`): a name is bound exactly
when it is in the name list and bound in the original. -/
theorem lookupName_filterMap (names : List String) (orig : List (String × Node))
    (n : String) :
    lookupName n (names.filterMap fun k => (lookupName k orig).map fun v => (k, v))
      = if n ∈ names then lookupName n orig else none := by
  induction names with
  | nil => simp [lookupName]
  | cons a rest ih =>
    by_cases han : n = a
    · subst han
      cases horig : lookupName n orig with
      | none =>
        simp only [List.filterMap_cons, horig, Option.map_none']
        rw [ih]
        by_cases hmem : n ∈ rest
        · simp [hmem, horig]
        · simp [hmem]
      | some d =>
        simp only [List.filterMap_cons, horig, Option.map_some']
        simp [lookupName, horig]
    · cases horig : lookupName a orig with
      | none =>
        simp only [List.filterMap_cons, horig, Option.map_none']
        rw [ih]
        simp [List.mem_cons, han]
      | some d =>
        simp only [List.filterMap_cons, horig, Option.map_some']
        rw [lookupName, if_neg han, ih]
        simp [List.mem_cons, han]

/-- A name is bound in the projected schema section exactly when it is
a closure name bound in the original section, with the original
binding. -/
theorem lookup_trimmedSchemas (cl : List String) (orig : List (String × Node))
    (n : String) :
    lookupName n (trimmedSchemas cl orig) = if n ∈ cl then lookupName n orig else none :=
  lookupName_filterMap cl orig n

/-- Key membership is the same as lookup success. -/
theorem mem_keysOf_iff (cat : List (String × Node)) (n : String) :
    n ∈ keysOf cat ↔ ∃ d, lookupName n cat = some d :=
  ⟨lookup_isSome_of_mem_keys, fun h => lookupName_mem_keys h.choose_spec⟩

/-- The key set of the projected schema section: closure names that are
original keys. -/
theorem mem_keysOf_trimmedSchemas (cl : List String) (orig : List (String × Node))
    (n : String) :
    n ∈ keysOf (trimmedSchemas cl orig) ↔ n ∈ cl ∧ n ∈ keysOf orig := by
  constructor
  · intro h
    obtain ⟨d, hd⟩ := (mem_keysOf_iff _ n).mp h
    rw [lookup_trimmedSchemas] at hd
    by_cases hcl : n ∈ cl
    · rw [if_pos hcl] at hd
      exact ⟨hcl, (mem_keysOf_iff _ n).mpr ⟨d, hd⟩⟩
    · rw [if_neg hcl] at hd
      cases hd
  · rintro ⟨hcl, hk⟩
    obtain ⟨d, hd⟩ := (mem_keysOf_iff _ n).mp hk
    refine (mem_keysOf_iff _ n).mpr ⟨d, ?_⟩
    rw [lookup_trimmedSchemas, if_pos hcl]
    exact hd

/-- Reachability is monotone in the root set. -/
theorem reachable_mono (cat : List (String × Node)) {r1 r2 : List String}
    (hsub : ∀ x ∈ r1, x ∈ r2) {n : String} (h : Reachable cat r1 n) :
    Reachable cat r2 n := by
  induction h with
  | root h => exact Reachable.root (hsub _ h)
  | step hm hd hr ih => exact Reachable.step ih hd hr

/-- Reachability survives projection: every name reachable in the
original catalog is reachable in the catalog trimmed to the closure,
because every expanded name on a reference path is itself a reachable
catalog key and hence kept with its original definition. -/
theorem reachable_trim (cat : List (String × Node)) (roots : List String)
    {n : String} (h : Reachable cat roots n) :
    Reachable (trimmedSchemas (refClosure cat roots) cat) roots n := by
  induction h with
  | root h => exact Reachable.root h
  | step hm hd hr ih =>
    have hmcl := refClosure_complete cat roots hm (lookupName_mem_keys hd)
    refine Reachable.step ih ?_ hr
    rw [lookup_trimmedSchemas, if_pos hmcl]
    exact hd

/-- The schema section of the document built by `create_trimmed_spec`
is the projected schema section. -/
theorem schemasOf_create_trimmed_spec (closureNames : List String) (spec : Node) :
    schemasOf (create_trimmed_spec closureNames spec)
      = trimmedSchemas closureNames (schemasOf spec) := by
  simp [schemasOf, create_trimmed_spec, dictGet, asMap, lookupName]

/-- The paths section of the document built by `create_trimmed_spec` is
the allow-list projection of the original paths section. -/
theorem pathsOf_create_trimmed_spec (closureNames : List String) (spec : Node) :
    pathsOf (create_trimmed_spec closureNames spec)
      = trimPaths chatPathAllowList (pathsOf spec) := by
  simp [pathsOf, create_trimmed_spec, dictGet, asMap, lookupName]

/-- C1 counterexample: in the catalog where Y references the undefined
name Z, the name Z is transitively reachable from the root set
containing Y via a reference edge found in a definition present in the
catalog, yet the BFS closure does not contain Z: closure completeness
as claimed fails for dangling reference targets. -/
theorem c1_closure_completeness_cex :
    Reachable danglingCat ["Y"] "Z" ∧ "Z" ∉ refClosure danglingCat ["Y"] := by
  constructor
  · have hd : lookupName "Y" danglingCat
        = some (Node.map [("$ref", Node.str "#/components/schemas/Z")]) := rfl
    have hr : "Z" ∈ find_schema_references
        (Node.map [("$ref", Node.str "#/components/schemas/Z")]) := by
      simp [find_schema_references, visitNode, refName, lastSeg]
    exact Reachable.step (Reachable.root (by simp)) hd hr
  · simp [danglingCat, refClosure, closureLoop, processRefs, find_schema_references,
      visitNode, refName, lastSeg, lookupName, keysOf, List.dedup]

/-- C1 (amended): closure completeness restricted to the catalog — every
schema name transitively reachable from the roots that has a definition
in the catalog is contained in the BFS closure (reachable names with no
definition are the only reachable names excluded). -/
theorem c1_closure_completeness_on_catalog (cat : List (String × Node))
    (roots : List String) (n : String) (h1 : Reachable cat roots n)
    (h2 : n ∈ keysOf cat) : n ∈ refClosure cat roots :=
  refClosure_complete cat roots h1 h2

/-- C1 witness: the amended completeness theorem applied to a concrete
one-schema catalog and its root. -/
theorem c1_closure_completeness_on_catalog_witness :
    "A" ∈ refClosure [("A", Node.map [])] ["A"] :=
  c1_closure_completeness_on_catalog [("A", Node.map [])] ["A"] "A"
    (Reachable.root (by simp)) (by simp [keysOf])

/-- C2 counterexample: for the catalog with X (no references) and Y
(referencing the undefined Z) and roots containing exactly Y, the claim
expects the closure to contain Z; the code's closure does not keep the
dangling discovered name Z. -/
theorem c2_dangling_kept_cex : "Z" ∉ refClosure danglingCat ["Y"] := by
  simp [danglingCat, refClosure, closureLoop, processRefs, find_schema_references,
    visitNode, refName, lastSeg, lookupName, keysOf, List.dedup]

/-- C2 (amended): dangling discovered names are dropped, not kept: every
member of the closure is a root or a catalog key, so a name discovered
via a reference edge but absent from the catalog never enters the
closure; for the example catalog the closure from Y is exactly the
singleton of Y. -/
theorem c2_dangling_dropped :
    (∀ (cat : List (String × Node)) (roots : List String) (n : String),
        n ∈ refClosure cat roots → n ∈ roots ∨ n ∈ keysOf cat)
    ∧ refClosure danglingCat ["Y"] = ["Y"] := by
  constructor
  · intro cat roots n hn
    rcases refClosure_sound cat roots hn with h | h
    · exact Or.inl h
    · exact Or.inr h.1
  · simp [danglingCat, refClosure, closureLoop, processRefs, find_schema_references,
      visitNode, refName, lastSeg, lookupName, keysOf, List.dedup]

/-- C2 witness: the amended theorem applied to the example catalog at
the root Y, whose closure membership is discharged by evaluation. -/
theorem c2_dangling_dropped_witness :
    "Y" ∈ (["Y"] : List String) ∨ "Y" ∈ keysOf danglingCat :=
  c2_dangling_dropped.1 danglingCat ["Y"] "Y"
    (by simp [danglingCat, refClosure, closureLoop, processRefs, find_schema_references,
      visitNode, refName, lastSeg, lookupName, keysOf, List.dedup])

/-- C3: cycle safety of the closure computation: the BFS (a total,
well-founded function) never lists a name twice, the self-referencing
catalog yields from M exactly the closure containing M alone, and the
2-cycle catalog yields from A exactly A and B, once each. -/
theorem c3_termination_on_cycles :
    (∀ (cat : List (String × Node)) (roots : List String),
        (refClosure cat roots).Nodup)
    ∧ refClosure selfRefCat ["M"] = ["M"]
    ∧ refClosure twoCycleCat ["A"] = ["A", "B"] := by
  refine ⟨refClosure_nodup, ?_, ?_⟩
  · simp [selfRefCat, refClosure, closureLoop, processRefs, find_schema_references,
      visitNode, refName, lastSeg, lookupName, keysOf, List.dedup]
  · simp [twoCycleCat, refClosure, closureLoop, processRefs, find_schema_references,
      visitNode, refName, lastSeg, lookupName, keysOf, List.dedup]

/-- C4: projector exactness on schemas: a name is bound in the schema
section of the document built by `create_trimmed_spec` exactly when it
is one of the closure names and is bound in the original document's
schema section, and then it is bound to the original subtree
unchanged. -/
theorem c4_projector_schema_exact (closureNames : List String) (spec : Node)
    (n : String) :
    lookupName n (schemasOf (create_trimmed_spec closureNames spec))
      = if n ∈ closureNames then lookupName n (schemasOf spec) else none := by
  rw [schemasOf_create_trimmed_spec, lookup_trimmedSchemas]

/-- C5 counterexample: on a node whose single entry maps the key of a
reference marker to the non-string value 5, the reference scan does not
fail with any error: it returns successfully with an empty reference
list, silently proceeding. -/
theorem c5_malformed_ref_cex :
    find_schema_references_exc (Node.map [("$ref", Node.int 5)]) = Except.ok [] := by
  simp [find_schema_references_exc, visitNodeE]

/-- C5 (amended): the reference scan raises no error on any input: a
reference-marker entry whose value is not a string is simply not
treated as a reference (mapping and sequence values are recursed into
like any other value, scalar values are skipped), and the scan always
returns its reference list. -/
theorem c5_scan_never_fails (schema : Node) :
    find_schema_references_exc schema = Except.ok (find_schema_references schema) :=
  visitNodeE_ok schema []

/-- C6: path allow-list projection: a key is bound in an allow-list
projection of a paths section exactly when it is in the allow-list and
bound in the original section (then to the original subtree by value);
the document built by `create_trimmed_spec` carries exactly this
projection for the hard-coded allow-list; and on the spec's concrete
example only the foo path survives. -/
theorem c6_path_allowlist_projection :
    (∀ (allowList : List String) (origPaths : List (String × Node)) (k : String),
        lookupName k (trimPaths allowList origPaths)
          = if k ∈ allowList then lookupName k origPaths else none)
    ∧ (∀ (closureNames : List String) (spec : Node),
        pathsOf (create_trimmed_spec closureNames spec)
          = trimPaths chatPathAllowList (pathsOf spec))
    ∧ ∀ (fooDef barDef : Node),
        trimPaths ["/foo"] [("/foo", fooDef), ("/bar", barDef)] = [("/foo", fooDef)] := by
  refine ⟨fun a o k => lookupName_filterMap a o k, pathsOf_create_trimmed_spec, ?_⟩
  intro fooDef barDef
  simp [trimPaths, lookupName]

/-- C7 counterexample: with the empty catalog and the single dangling
root A, the re-run closure on the trimmed schema section contains A,
but the first-run closure restricted to the names present in the
trimmed output does not: the claimed set equality fails at A for roots
absent from the catalog. -/
theorem c7_idempotence_cex :
    "A" ∈ refClosure (trimmedSchemas (refClosure [] ["A"]) []) ["A"]
    ∧ ¬("A" ∈ refClosure [] ["A"]
        ∧ "A" ∈ keysOf (trimmedSchemas (refClosure [] ["A"]) [])) := by
  constructor
  · simp [refClosure, closureLoop, trimmedSchemas, lookupName, keysOf, List.dedup]
  · rintro ⟨h1, h2⟩
    simp [refClosure, closureLoop, trimmedSchemas, lookupName, keysOf, List.dedup] at h2

/-- C7 (amended): idempotence of projection for root sets present in
the catalog: when every root name has a definition in the original
catalog, re-running the closure on the trimmed schema section with the
same roots yields a closure equal, as a set, to the first-run closure
restricted to the names present in the trimmed output. -/
theorem c7_projection_idempotent (cat : List (String × Node)) (roots : List String)
    (hroots : ∀ r ∈ roots, r ∈ keysOf cat) (n : String) :
    n ∈ refClosure (trimmedSchemas (refClosure cat roots) cat) roots
      ↔ n ∈ refClosure cat roots
        ∧ n ∈ keysOf (trimmedSchemas (refClosure cat roots) cat) := by
  constructor
  · intro h
    rcases refClosure_sound _ roots h with hroot | ⟨hk, _⟩
    · exact ⟨refClosure_roots cat roots hroot,
        (mem_keysOf_trimmedSchemas _ cat n).mpr
          ⟨refClosure_roots cat roots hroot, hroots n hroot⟩⟩
    · exact ⟨((mem_keysOf_trimmedSchemas _ cat n).mp hk).1, hk⟩
  · rintro ⟨hcl, hkT⟩
    rcases refClosure_sound cat roots hcl with hroot | ⟨hk, hreach⟩
    · exact refClosure_roots _ roots hroot
    · exact refClosure_complete _ roots (reachable_trim cat roots hreach) hkT

/-- C7 witness: the amended idempotence theorem applied to a concrete
one-schema catalog whose root is present, at the name A. -/
theorem c7_projection_idempotent_witness :
    "A" ∈ refClosure
        (trimmedSchemas (refClosure [("A", Node.map [])] ["A"]) [("A", Node.map [])])
        ["A"] :=
  (c7_projection_idempotent [("A", Node.map [])] ["A"] (by simp [keysOf]) "A").mpr
    ⟨by simp [refClosure, closureLoop, processRefs, find_schema_references, visitNode,
        lookupName, keysOf, List.dedup],
     by simp [trimmedSchemas, refClosure, closureLoop, processRefs,
        find_schema_references, visitNode, lookupName, keysOf, List.dedup]⟩

/-- C8: every caller-supplied root name, including any root with no
entry in the catalog, is contained in the closure result; absence from
the catalog causes no error (the closure is a total function). -/
theorem c8_roots_retained (cat : List (String × Node)) (roots : List String)
    (r : String) (hr : r ∈ roots) : r ∈ refClosure cat roots :=
  refClosure_roots cat roots hr

/-- C8 witness: a root name absent from the (empty) catalog is still in
the closure. -/
theorem c8_roots_retained_witness : "Ghost" ∈ refClosure [] ["Ghost"] :=
  c8_roots_retained [] ["Ghost"] "Ghost" (by simp)

/-- C9: monotonicity of the closure in the root set: enlarging the root
set can only enlarge the closure. -/
theorem c9_closure_monotone (cat : List (String × Node)) (r1 r2 : List String)
    (hsub : ∀ x ∈ r1, x ∈ r2) (n : String) (hn : n ∈ refClosure cat r1) :
    n ∈ refClosure cat r2 := by
  rcases refClosure_sound cat r1 hn with h | ⟨hk, hr⟩
  · exact refClosure_roots cat r2 (hsub n h)
  · exact refClosure_complete cat r2 (reachable_mono cat hsub hr) hk

/-- C9 witness: monotonicity applied to concrete root sets over the
empty catalog. -/
theorem c9_closure_monotone_witness : "A" ∈ refClosure [] ["A", "B"] :=
  c9_closure_monotone [] ["A"] ["A", "B"] (by simp) "A"
    (by simp [refClosure, closureLoop, lookupName, List.dedup])

/-- C10: the projected document's info title and info description are
the same fixed strings for every input document and closure-name list
(the original metadata never flows into them), while the openapi,
servers, security and securitySchemes fields are copied from the input
document. -/
theorem c10_metadata_fixed (cl1 cl2 : List String) (s1 s2 : Node) :
    dictGet (dictGet (create_trimmed_spec cl1 s1) "info" Node.null) "title" Node.null
      = dictGet (dictGet (create_trimmed_spec cl2 s2) "info" Node.null) "title" Node.null
    ∧ dictGet (dictGet (create_trimmed_spec cl1 s1) "info" Node.null) "description"
        Node.null
      = dictGet (dictGet (create_trimmed_spec cl2 s2) "info" Node.null) "description"
        Node.null
    ∧ dictGet (create_trimmed_spec cl1 s1) "openapi" Node.null
      = dictGet s1 "openapi" Node.null
    ∧ dictGet (create_trimmed_spec cl1 s1) "servers" Node.null
      = dictGet s1 "servers" (Node.arr [])
    ∧ dictGet (create_trimmed_spec cl1 s1) "security" Node.null
      = dictGet s1 "security" (Node.arr [])
    ∧ dictGet (dictGet (create_trimmed_spec cl1 s1) "components" Node.null)
        "securitySchemes" Node.null
      = dictGet (dictGet s1 "components" (Node.map [])) "securitySchemes"
        (Node.map []) := by
  refine ⟨rfl, rfl, rfl, rfl, rfl, rfl⟩
